import Mathlib

/-
Verification of the SecureBox puzzle solver (src/main.cpp).

The program keeps a two-dimensional grid of booleans (`std::vector<std::vector<bool>> box`)
of dimensions `ySize × xSize`.  `toggle(y,x)` flips cell (y,x), then every cell of
row y, then every cell of column x.  `openBox` reads the scrambled state, builds an
augmented GF(2) linear system of size `boxSize × (boxSize+1)` with `boxSize = y*x`,
solves it by Gauss-Jordan elimination modulo 2, replays the solution bits as toggle
calls and returns `isLocked()` (`true` = still locked).

The embedding below represents the grid as a function `Nat → Nat → Bool` and the
matrix as a function `Nat → Nat → Nat`; every C++ loop is translated either as a
fold over `List.range` (for-loops with a static bound) or as structural recursion
on an explicit fuel / remaining-range argument (loops with early exit).  The
pseudo-random scrambling of the constructor is treated as an external input: the
solver pipeline `openBoxOn` is parameterized by the post-shuffle state, and the
shuffle loop itself is modeled by `shuffleFrom`, with the random draws supplied as
a list.
-/

/-- A grid of boolean cells; `g i j` is the cell in row `i`, column `j`
(the value of `box[i][j]` in the C++ source). -/
abbrev Grid := Nat → Nat → Bool

/-- Writing one cell: models the C++ assignment `box[a][b] = v`. -/
def setCell (g : Grid) (a b : Nat) (v : Bool) : Grid :=
  fun i j => if i = a ∧ j = b then v else g i j

/-- Flipping one cell: models `box[a][b] = !box[a][b]`. -/
def flipCell (g : Grid) (a b : Nat) : Grid :=
  setCell g a b (!(g a b))

/-- `SecureBox::toggle(y, x)` (src/main.cpp lines 53-60): flip cell (y,x), then
`for (i = 0; i < xSize; i++) box[y][i] = !box[y][i]`, then
`for (i = 0; i < ySize; i++) box[i][x] = !box[i][x]`. -/
def toggle (ySize xSize : Nat) (g : Grid) (y x : Nat) : Grid :=
  let g1 := flipCell g y x
  let g2 := (List.range xSize).foldl (fun h i => flipCell h y i) g1
  (List.range ySize).foldl (fun h i => flipCell h i x) g2

/-- `SecureBox::isLocked()` (src/main.cpp lines 67-75): true iff some cell
is true; the C++ loops scan columns in the outer loop and rows in the inner loop. -/
def isLocked (ySize xSize : Nat) (g : Grid) : Bool :=
  (List.range xSize).any (fun x => (List.range ySize).any (fun y => g y x))

/-- The all-unlocked grid, the state of `box` right after `box.resize` and before
`shuffle()` runs (a fresh `std::vector<bool>` is zero-initialized). -/
def zeroGrid : Grid := fun _ _ => false

/-- Applying a list of toggle calls in order. -/
def applyToggles (ySize xSize : Nat) (L : List (Nat × Nat)) (g : Grid) : Grid :=
  L.foldl (fun h p => toggle ySize xSize h p.1 p.2) g

/-- A grid state is reachable when it is produced from the all-zero grid by a
finite sequence of in-range toggle calls; `SecureBox::shuffle` produces exactly
such states (when its index arithmetic is defined, see `shuffleFrom`). -/
def Reachable (ySize xSize : Nat) (g : Grid) : Prop :=
  ∃ L : List (Nat × Nat),
    (∀ p ∈ L, p.1 < ySize ∧ p.2 < xSize) ∧ g = applyToggles ySize xSize L zeroGrid

/-- The C++ expression `a % b` on unsigned integers: it has no defined result when
`b = 0` (undefined behavior), modeled as `none`. -/
def cppMod (a b : Nat) : Option Nat :=
  if b = 0 then none else some (a % b)

/-- `SecureBox::shuffle` (src/main.cpp lines 95-99): the loop body is
`toggle(rng() % ySize, rng() % xSize)`; the pseudo-random draws are supplied as a
list of pairs, one pair per loop iteration (the loop runs `rng() % 1000` times).
A zero dimension makes `rng() % ySize` (or `% xSize`) undefined behavior, which
surfaces as `none`. -/
def shuffleFrom (ySize xSize : Nat) (g : Grid) : List (Nat × Nat) → Option Grid
  | [] => some g
  | (ry, rx) :: rest =>
    match cppMod ry ySize, cppMod rx xSize with
    | some yy, some xx => shuffleFrom ySize xSize (toggle ySize xSize g yy xx) rest
    | _, _ => none

/-- The augmented linear-system matrix of `openBox`
(`std::vector<std::vector<int>> matrix(boxSize, std::vector<int>(boxSize + 1, 0))`),
as a function from row and column index to the stored integer. -/
abbrev Mat := Nat → Nat → Nat

/-- Writing one matrix entry: models `matrix[r][c] = v`. -/
def setEntry (m : Mat) (r c v : Nat) : Mat :=
  fun a b => if a = r ∧ b = c then v else m a b

/-- Body of the matrix-construction loops of `openBox` for one cell (i,j)
(src/main.cpp lines 144-163): with flat index `p = i*x + j`, store the initial
state bit in the augmented column `boxSize = y*x`
(`matrix[p][boxSize] = state[i][j] ? 1 : 0`), then set coefficient 1 for every
unknown in the same column j (`for a < y: matrix[p][a*x+j] = 1`) and every
unknown in the same row i (`for b < x: matrix[p][i*x+b] = 1`). -/
def buildCell (y x : Nat) (st : Grid) (i j : Nat) (m : Mat) : Mat :=
  let p := i * x + j
  let m1 := setEntry m p (y * x) (if st i j then 1 else 0)
  let m2 := (List.range y).foldl (fun mm a => setEntry mm p (a * x + j) 1) m1
  (List.range x).foldl (fun mm b => setEntry mm p (i * x + b) 1) m2

/-- The matrix-construction loops of `openBox` (src/main.cpp lines 141-165):
iterate `buildCell` over all cells, row-major, starting from the zero-initialized
matrix. -/
def buildMatrix (y x : Nat) (st : Grid) : Mat :=
  (List.range y).foldl (fun m i =>
    (List.range x).foldl (fun m j => buildCell y x st i j m) m)
    (fun _ _ => 0)

/-- Closed form of the matrix produced by `buildMatrix` (proved below in
`buildMatrix_apply`): row p has a 1 in column q exactly when unknown q shares the
row or the column of cell p, and the augmented column holds the initial state. -/
def buildEntry (y x : Nat) (st : Grid) (p q : Nat) : Nat :=
  if p < y * x then
    if q = y * x then (if st (p / x) (p % x) then 1 else 0)
    else if q < y * x ∧ (q / x = p / x ∨ q % x = p % x) then 1 else 0
  else 0

/-- The pivot search of the elimination (src/main.cpp lines 173-182): the first
row r in `[row, boxSize)` with `matrix[r][col] == 1`, or `none` (`pivot == -1`). -/
def findPivot (n : Nat) (m : Mat) (col row : Nat) : Option Nat :=
  (List.range' row (n - row)).find? (fun r => m r col == 1)

/-- Row swap `std::swap(matrix[row], matrix[pivot])` (src/main.cpp line 191). -/
def swapRows (m : Mat) (r1 r2 : Nat) : Mat :=
  fun r c => m (if r = r1 then r2 else if r = r2 then r1 else r) c

/-- The inner elimination loop `for (c = col; c <= boxSize; c++)
matrix[r][c] ^= matrix[row][c]` (src/main.cpp lines 200-204), with `tgt = r` and
`src = row`. -/
def xorRowFrom (m : Mat) (tgt src : Nat) (col hi : Nat) : Mat :=
  (List.range (hi + 1 - col)).foldl
    (fun mm k => setEntry mm tgt (col + k) (mm tgt (col + k) ^^^ mm src (col + k))) m

/-- The outer elimination loop over rows (src/main.cpp lines 196-206): every row
`r ≠ row` with a 1 in column `col` gets row `row` xored into it from column `col`
to the augmented column `n` inclusive. -/
def elimOthers (n : Nat) (col row : Nat) (m : Mat) : Mat :=
  (List.range n).foldl
    (fun mm r => if r ≠ row ∧ mm r col = 1 then xorRowFrom mm r row col n else mm) m

/-- The column loop of the Gauss-Jordan elimination (src/main.cpp lines 169-208).
The first argument is fuel bounding the remaining columns; the loop processes
column `col` while `col < boxSize && row < boxSize`, searching a pivot, swapping
it up when it is not already at `row` (`if (pivot != row)`), recording
`index[col] = row` and eliminating the column from every other row.  `index` maps
a column to its pivot row; the C++ sentinel `-1` is `none`. -/
def gaussGo (n : Nat) : Nat → Nat → Nat → (Nat → Option Nat) → Mat →
    Nat × (Nat → Option Nat) × Mat
  | 0, _, row, index, m => (row, index, m)
  | fuel + 1, col, row, index, m =>
    if col < n ∧ row < n then
      match findPivot n m col row with
      | none => gaussGo n fuel (col + 1) row index m
      | some pivot =>
        let m1 := if pivot ≠ row then swapRows m row pivot else m
        let index1 : Nat → Option Nat := fun c => if c = col then some row else index c
        let m2 := elimOthers n col row m1
        gaussGo n fuel (col + 1) (row + 1) index1 m2
    else (row, index, m)

/-- Complete Gauss-Jordan elimination: run the column loop from `col = 0`,
`row = 0`, all pivot indices unset; `boxSize` fuel suffices since the loop body
advances `col` each iteration. -/
def gauss (n : Nat) (m : Mat) : Nat × (Nat → Option Nat) × Mat :=
  gaussGo n n 0 0 (fun _ => none) m

/-- The consistency check (src/main.cpp lines 210-218): some row `r` in
`[row, boxSize)` has `matrix[r][boxSize] == 1`, i.e. an eliminated-out equation
demands 1; then `openBox` prints "No solution" and returns `true`. -/
def hasBadRow (n : Nat) (m : Mat) (row : Nat) : Bool :=
  (List.range' row (n - row)).any (fun r => m r n == 1)

/-- Solution extraction (src/main.cpp lines 220-231): a pivot column takes the
augmented entry of its pivot row, a free column takes 0. -/
def solVec (n : Nat) (index : Nat → Option Nat) (m : Mat) : Nat → Nat :=
  fun col =>
    match index col with
    | some r => m r n
    | none => 0

/-- The application loop (src/main.cpp lines 233-241): scan unknowns in
increasing order and call `box.toggle(q / x, q % x)` for every set solution bit. -/
def applySolution (ySize xSize n : Nat) (s : Nat → Nat) (g : Grid) : Grid :=
  (List.range n).foldl
    (fun h q => if s q = 1 then toggle ySize xSize h (q / xSize) (q % xSize) else h) g

/-- The elimination stage of `openBox` run on a given scrambled state. -/
def gaussOut (y x : Nat) (state : Grid) : Nat × (Nat → Option Nat) × Mat :=
  gauss (y * x) (buildMatrix y x state)

/-- Whether the consistency check of `openBox` fires on this state (the
"No solution for SecureBox" early-return path). -/
def noSolution (y x : Nat) (state : Grid) : Bool :=
  hasBadRow (y * x) (gaussOut y x state).2.2 (gaussOut y x state).1

/-- The solution vector `ans` computed by `openBox` for this state. -/
def ansVec (y x : Nat) (state : Grid) : Nat → Nat :=
  solVec (y * x) (gaussOut y x state).2.1 (gaussOut y x state).2.2

/-- The toggle calls issued by the application loop of `openBox`, in the order
they are issued: position `(q / x, q % x)` for each set bit `q` of `ans`. -/
def appliedToggles (y x : Nat) (state : Grid) : List (Nat × Nat) :=
  ((List.range (y * x)).filter (fun q => ansVec y x state q = 1)).map
    (fun q => (q / x, q % x))

/-- The deterministic build-solve-apply pipeline of `openBox`
(src/main.cpp lines 122-247), parameterized by the scrambled state the
constructor produced: build the system, eliminate, return `true` with the grid
untouched when the consistency check fires, otherwise replay the solution bits as
toggles and return `isLocked()` together with the final grid.  The `print` and
`std::cout` statements are I/O only and do not affect the result. -/
def openBoxOn (y x : Nat) (state : Grid) : Bool × Grid :=
  if noSolution y x state then (true, state)
  else
    let g1 := applySolution y x (y * x) (ansVec y x state) state
    (isLocked y x g1, g1)

/-- The bit of a grid cell as an element of GF(2). -/
def bitZ (b : Bool) : ZMod 2 := if b then 1 else 0

/-- A 0/1 vector `s` solves the augmented system `m` of size `n × (n+1)` over
GF(2): for every equation r, the xor of the coefficients selected by `s` equals
the augmented entry. -/
def Sat (n : Nat) (m : Mat) (s : Nat → Nat) : Prop :=
  ∀ r < n, (∑ c ∈ Finset.range n, (m r c : ZMod 2) * (s c : ZMod 2)) = (m r n : ZMod 2)

/-- Loop invariant of the Gauss-Jordan column loop, relating the current state
(`col`, `row`, `index`, `m`) to the original matrix `m0`.  `equiv` says row
operations preserved the solution set; `lowzero` says rows at or below the
current pivot row are zero in all processed columns; `pivots` describes the
recorded pivot columns (a lone 1 at the pivot row); `surj`/`inj` say the pivot
assignment is a bijection between recorded columns and rows below `row`;
`bounded` says all entries stay 0/1. -/
structure GaussInv (n : Nat) (m0 : Mat) (col row : Nat)
    (index : Nat → Option Nat) (m : Mat) : Prop where
  row_le : row ≤ n
  equiv : ∀ s, Sat n m0 s ↔ Sat n m s
  lowzero : ∀ r c, row ≤ r → r < n → c < col → m r c = 0
  pivots : ∀ c pr, index c = some pr →
    pr < row ∧ c < col ∧ m pr c = 1 ∧ ∀ r, r < n → r ≠ pr → m r c = 0
  surj : ∀ r, r < row → ∃ c, index c = some r
  inj : ∀ c c1 pr, index c = some pr → index c1 = some pr → c = c1
  bounded : ∀ r c, r < n → c ≤ n → m r c ≤ 1
  highNone : ∀ c, col ≤ c → index c = none

/-- State of the elimination at exit of the column loop: same as `GaussInv` but
with every column processed (rows at or below `row` are entirely zero on the
coefficient part). -/
structure GaussFinal (n : Nat) (m0 : Mat) (row : Nat)
    (index : Nat → Option Nat) (m : Mat) : Prop where
  row_le : row ≤ n
  equiv : ∀ s, Sat n m0 s ↔ Sat n m s
  lowzero : ∀ r c, row ≤ r → r < n → c < n → m r c = 0
  pivots : ∀ c pr, index c = some pr →
    pr < row ∧ c < n ∧ m pr c = 1 ∧ ∀ r, r < n → r ≠ pr → m r c = 0
  surj : ∀ r, r < row → ∃ c, index c = some r
  inj : ∀ c c1 pr, index c = some pr → index c1 = some pr → c = c1
  bounded : ∀ r c, r < n → c ≤ n → m r c ≤ 1

/-- The 2×2 state of the spec's concrete scenario: the all-zero grid after
`toggle(0,0)`, i.e. [[1,1],[1,0]]. -/
def st2 : Grid := applyToggles 2 2 [(0, 0)] zeroGrid

/-- A grid whose only set cell is (0,0); read as a 1×1 grid it is [[1]], read as
a 1×2 grid it is [[1,0]]. -/
def unitState : Grid := fun i j => decide (i = 0 ∧ j = 0)

section ToggleLemmas

/-- Unfolding a fold over `List.range (k+1)` at its last step. -/
theorem foldl_range_succ {α : Type} (f : α → Nat → α) (a : α) (k : Nat) :
    (List.range (k + 1)).foldl f a = f ((List.range k).foldl f a) k := by
  rw [List.range_succ, List.foldl_append, List.foldl_cons, List.foldl_nil]

/-- A conditional flip written as an xor. -/
theorem if_flip (c : Prop) [Decidable c] (v : Bool) :
    (if c then !v else v) = Bool.xor v (decide c) := by
  by_cases h : c <;> simp [h, Bool.xor_comm]

/-- Effect of the row loop of `toggle` on an arbitrary cell. -/
theorem foldl_flipRow_apply (y k : Nat) (g : Grid) :
    ∀ i j, ((List.range k).foldl (fun h c => flipCell h y c) g) i j
      = if i = y ∧ j < k then !(g i j) else g i j := by
  induction k with
  | zero => intro i j; simp
  | succ k ih =>
    intro i j
    rw [foldl_range_succ]
    show (if i = y ∧ j = k then !(_ : Grid) y k else _) = _
    rw [ih y k, ih i j]
    by_cases hi : i = y
    · by_cases hj : j = k
      · subst hi; subst hj; simp [Nat.lt_irrefl, Nat.lt_succ_iff]
      · simp only [hi, hj, and_true, and_false, if_false, true_and]
        refine if_congr ?_ rfl rfl
        constructor
        · exact fun h => Nat.lt_succ_of_lt h
        · intro h; rcases Nat.lt_succ_iff_lt_or_eq.mp h with h | h
          · exact h
          · exact absurd h hj
    · simp [hi]

/-- Effect of the column loop of `toggle` on an arbitrary cell. -/
theorem foldl_flipCol_apply (x k : Nat) (g : Grid) :
    ∀ i j, ((List.range k).foldl (fun h r => flipCell h r x) g) i j
      = if j = x ∧ i < k then !(g i j) else g i j := by
  induction k with
  | zero => intro i j; simp
  | succ k ih =>
    intro i j
    rw [foldl_range_succ]
    show (if i = k ∧ j = x then !(_ : Grid) k x else _) = _
    rw [ih k x, ih i j]
    by_cases hj : j = x
    · by_cases hi : i = k
      · subst hi; subst hj; simp [Nat.lt_irrefl, Nat.lt_succ_iff]
      · simp only [hi, hj, and_true, true_and, false_and, if_false]
        refine if_congr ?_ rfl rfl
        constructor
        · exact fun h => Nat.lt_succ_of_lt h
        · intro h; rcases Nat.lt_succ_iff_lt_or_eq.mp h with h | h
          · exact h
          · exact absurd h hi
    · simp [hj]

/-- Pointwise value of `flipCell`. -/
theorem flipCell_apply (g : Grid) (a b i j : Nat) :
    flipCell g a b i j = Bool.xor (g i j) (decide (i = a ∧ j = b)) := by
  by_cases h : i = a ∧ j = b
  · obtain ⟨rfl, rfl⟩ := h
    simp [flipCell, setCell]
  · simp [flipCell, setCell, h]

/-- Closed form for `toggle`: the cell (i,j) is flipped once for each of the three
C++ statements that touch it. -/
theorem toggle_apply (ySize xSize : Nat) (g : Grid) (y x i j : Nat) :
    toggle ySize xSize g y x i j
      = Bool.xor (Bool.xor (Bool.xor (g i j) (decide (i = y ∧ j = x)))
          (decide (i = y ∧ j < xSize))) (decide (j = x ∧ i < ySize)) := by
  show ((List.range ySize).foldl (fun h i => flipCell h i x)
      ((List.range xSize).foldl (fun h i => flipCell h y i) (flipCell g y x))) i j = _
  rw [foldl_flipCol_apply, foldl_flipRow_apply, flipCell_apply,
    if_flip (i = y ∧ j < xSize), if_flip (j = x ∧ i < ySize)]

/-- In-range closed form for `toggle`: for valid toggle position and valid cell,
the cell flips exactly when it shares the row or the column of the toggle. -/
theorem toggle_apply_lt (ySize xSize : Nat) (g : Grid) {y x i j : Nat}
    (hy : y < ySize) (hx : x < xSize) (hi : i < ySize) (hj : j < xSize) :
    toggle ySize xSize g y x i j = Bool.xor (g i j) (decide (i = y ∨ j = x)) := by
  rw [toggle_apply]
  by_cases h1 : i = y <;> by_cases h2 : j = x <;>
    simp [h1, h2, hy, hx, hi, hj, Bool.xor_assoc]

end ToggleLemmas

section ToggleAlgebra

/-- Claim C6: for every grid and every position (y,x), performing `toggle(y,x)`
twice in immediate succession returns the grid to exactly its prior state: every
toggle is a self-inverse operation. -/
theorem toggle_toggle_cancel (ySize xSize : Nat) (g : Grid) (y x : Nat) :
    toggle ySize xSize (toggle ySize xSize g y x) y x = g := by
  funext i j
  rw [toggle_apply, toggle_apply]
  generalize g i j = v
  generalize decide (i = y ∧ j = x) = a
  generalize decide (i = y ∧ j < xSize) = b
  generalize decide (j = x ∧ i < ySize) = c
  cases v <;> cases a <;> cases b <;> cases c <;> rfl

/-- Two toggle calls commute. -/
theorem toggle_comm (ySize xSize : Nat) (g : Grid) (y1 x1 y2 x2 : Nat) :
    toggle ySize xSize (toggle ySize xSize g y1 x1) y2 x2
      = toggle ySize xSize (toggle ySize xSize g y2 x2) y1 x1 := by
  funext i j
  rw [toggle_apply, toggle_apply, toggle_apply, toggle_apply]
  generalize g i j = v
  generalize decide (i = y1 ∧ j = x1) = a1
  generalize decide (i = y1 ∧ j < xSize) = b1
  generalize decide (j = x1 ∧ i < ySize) = c1
  generalize decide (i = y2 ∧ j = x2) = a2
  generalize decide (i = y2 ∧ j < xSize) = b2
  generalize decide (j = x2 ∧ i < ySize) = c2
  cases v <;> cases a1 <;> cases b1 <;> cases c1 <;> cases a2 <;> cases b2 <;>
    cases c2 <;> rfl

/-- Claim C7: for every grid state and every finite multiset of toggle positions,
applying those toggles in any order produces the same final grid: permuting the
list of toggle calls leaves the result unchanged (toggles commute pairwise, see
`toggle_comm`). -/
theorem applyToggles_perm (ySize xSize : Nat) {L1 L2 : List (Nat × Nat)}
    (h : L1.Perm L2) (g : Grid) :
    applyToggles ySize xSize L1 g = applyToggles ySize xSize L2 g := by
  induction h generalizing g with
  | nil => rfl
  | cons p _ ih =>
    show applyToggles ySize xSize _ (toggle ySize xSize g p.1 p.2) = _
    exact ih _
  | swap p q l =>
    show applyToggles ySize xSize l
        (toggle ySize xSize (toggle ySize xSize g q.1 q.2) p.1 p.2) = _
    rw [toggle_comm]
    rfl
  | trans _ _ ih1 ih2 => exact (ih1 g).trans (ih2 g)

end ToggleAlgebra

section ArithHelpers

theorem flat_lt {i j y x : Nat} (hi : i < y) (hj : j < x) : i * x + j < y * x := by
  calc i * x + j < i * x + x := Nat.add_lt_add_left hj _
  _ = (i + 1) * x := by rw [Nat.succ_mul]
  _ ≤ y * x := Nat.mul_le_mul_right x (Nat.succ_le_of_lt hi)

theorem flat_div {i j x : Nat} (hj : j < x) : (i * x + j) / x = i := by
  rw [Nat.add_comm, Nat.add_mul_div_right j i (Nat.lt_of_le_of_lt (Nat.zero_le j) hj),
    Nat.div_eq_of_lt hj, Nat.zero_add]

theorem flat_mod {i j x : Nat} (hj : j < x) : (i * x + j) % x = j := by
  rw [Nat.add_comm, Nat.add_mul_mod_self_right, Nat.mod_eq_of_lt hj]

theorem div_lt_of_lt_mul {q y x : Nat} (hx : 0 < x) (h : q < y * x) : q / x < y :=
  (Nat.div_lt_iff_lt_mul hx).mpr h

theorem div_mod_decomp (q x : Nat) : q = (q / x) * x + q % x := by
  rw [Nat.mul_comm, Nat.div_add_mod]

end ArithHelpers

section BuilderLemmas

/-- Generic closed form for a loop writing the constant 1 at positions `(p, f a)`. -/
theorem foldl_setOnes_apply (f : Nat → Nat) (p : Nat) (m : Mat) (k : Nat) (r c : Nat) :
    ((List.range k).foldl (fun mm a => setEntry mm p (f a) 1) m) r c
      = if r = p ∧ (∃ a, a < k ∧ c = f a) then 1 else m r c := by
  induction k with
  | zero => simp
  | succ k ih =>
    rw [foldl_range_succ]
    show (if r = p ∧ c = f k then 1 else _) = _
    by_cases h1 : r = p ∧ c = f k
    · rw [if_pos h1, if_pos ⟨h1.1, k, Nat.lt_succ_self k, h1.2⟩]
    · rw [if_neg h1, ih]
      by_cases h2 : r = p ∧ ∃ a, a < k ∧ c = f a
      · obtain ⟨hp, a, ha, hc⟩ := h2
        rw [if_pos ⟨hp, a, ha, hc⟩, if_pos ⟨hp, a, Nat.lt_succ_of_lt ha, hc⟩]
      · rw [if_neg h2]
        by_cases h3 : r = p ∧ ∃ a, a < k + 1 ∧ c = f a
        · obtain ⟨hp, a, ha, hc⟩ := h3
          rcases Nat.lt_succ_iff_lt_or_eq.mp ha with ha1 | rfl
          · exact absurd ⟨hp, a, ha1, hc⟩ h2
          · exact absurd ⟨hp, hc⟩ h1
        · rw [if_neg h3]

/-- The column-coefficient loop of `buildCell`, specialized. -/
theorem foldl_setCol_apply (x j p : Nat) (m : Mat) (k : Nat) (r c : Nat) :
    ((List.range k).foldl (fun mm a => setEntry mm p (a * x + j) 1) m) r c
      = if r = p ∧ (∃ a, a < k ∧ c = a * x + j) then 1 else m r c :=
  foldl_setOnes_apply (fun a => a * x + j) p m k r c

/-- The row-coefficient loop of `buildCell`, specialized. -/
theorem foldl_setRow_apply (x i p : Nat) (m : Mat) (k : Nat) (r c : Nat) :
    ((List.range k).foldl (fun mm b => setEntry mm p (i * x + b) 1) m) r c
      = if r = p ∧ (∃ b, b < k ∧ c = i * x + b) then 1 else m r c :=
  foldl_setOnes_apply (fun b => i * x + b) p m k r c

/-- Closed form for one `buildCell` step: only row `p = i*x + j` changes. -/
theorem buildCell_apply (y x : Nat) (st : Grid) (i j : Nat) (m : Mat) (r c : Nat) :
    buildCell y x st i j m r c
      = if r = i * x + j then
          (if ∃ b, b < x ∧ c = i * x + b then 1
           else if ∃ a, a < y ∧ c = a * x + j then 1
           else if c = y * x then (if st i j then 1 else 0)
           else m r c)
        else m r c := by
  show ((List.range x).foldl (fun mm b => setEntry mm (i * x + j) (i * x + b) 1)
      ((List.range y).foldl (fun mm a => setEntry mm (i * x + j) (a * x + j) 1)
        (setEntry m (i * x + j) (y * x) (if st i j then 1 else 0)))) r c = _
  rw [foldl_setRow_apply, foldl_setCol_apply]
  by_cases hr : r = i * x + j
  · subst hr
    simp only [eq_self_iff_true, true_and, if_pos]
    by_cases h1 : ∃ b, b < x ∧ c = i * x + b
    · rw [if_pos h1, if_pos h1]
    · rw [if_neg h1, if_neg h1]
      by_cases h2 : ∃ a, a < y ∧ c = a * x + j
      · rw [if_pos h2, if_pos h2]
      · rw [if_neg h2, if_neg h2]
        simp [setEntry]
  · simp [setEntry, hr]

end BuilderLemmas

section BuilderClosedForm

/-- Processing the cells of row i keeps the already-built rows and completes the
rows up to `i*x + J`. -/
theorem buildMatrix_inner (y x : Nat) (st : Grid) (i : Nat) (hiy : i < y) (M : Mat)
    (hM : ∀ r c, M r c = if r < i * x then buildEntry y x st r c else 0) :
    ∀ J, J ≤ x → ∀ r c,
      ((List.range J).foldl (fun m j => buildCell y x st i j m) M) r c
        = if r < i * x + J then buildEntry y x st r c else 0 := by
  intro J
  induction J with
  | zero => intro _ r c; simpa using hM r c
  | succ J ih =>
    intro hJ r c
    have hJx : J < x := Nat.lt_of_succ_le hJ
    have hx : 0 < x := Nat.lt_of_le_of_lt (Nat.zero_le J) hJx
    have hplt : i * x + J < y * x := flat_lt hiy hJx
    rw [foldl_range_succ, buildCell_apply]
    by_cases hr : r = i * x + J
    · rw [if_pos hr, hr, if_pos (Nat.add_lt_add_left (Nat.lt_succ_self J) (i * x))]
      by_cases hb : ∃ b, b < x ∧ c = i * x + b
      · rw [if_pos hb]
        obtain ⟨b, hbx, rfl⟩ := hb
        have h1 : i * x + b < y * x := flat_lt hiy hbx
        unfold buildEntry
        rw [if_pos hplt, if_neg (Nat.ne_of_lt h1), flat_div hJx,
          if_pos ⟨h1, Or.inl (flat_div hbx)⟩]
      · rw [if_neg hb]
        by_cases ha : ∃ a, a < y ∧ c = a * x + J
        · rw [if_pos ha]
          obtain ⟨a, hay, rfl⟩ := ha
          have h1 : a * x + J < y * x := flat_lt hay hJx
          unfold buildEntry
          rw [if_pos hplt, if_neg (Nat.ne_of_lt h1), flat_mod hJx,
            if_pos ⟨h1, Or.inr (flat_mod hJx).symm⟩]
        · rw [if_neg ha]
          by_cases hc : c = y * x
          · rw [if_pos hc]
            unfold buildEntry
            rw [if_pos hplt, if_pos hc, flat_div hJx, flat_mod hJx]
          · rw [if_neg hc, ih (Nat.le_of_lt hJx) _ c,
              if_neg (Nat.lt_irrefl (i * x + J)), ]
            unfold buildEntry
            rw [if_pos hplt, if_neg hc, flat_div hJx, flat_mod hJx]
            by_cases hd : c < y * x ∧ (c / x = i ∨ c % x = J)
            · exfalso
              obtain ⟨hlt, hd | hd⟩ := hd
              · exact hb ⟨c % x, Nat.mod_lt c hx, by
                  rw [← hd]; exact div_mod_decomp c x⟩
              · exact ha ⟨c / x, div_lt_of_lt_mul hx hlt, by
                  rw [← hd]; exact div_mod_decomp c x⟩
            · rw [if_neg hd]
    · rw [if_neg hr, ih (Nat.le_of_lt hJx) r c]
      refine if_congr ?_ rfl rfl
      constructor
      · exact fun h => Nat.lt_succ_of_lt h
      · intro h
        rcases Nat.lt_succ_iff_lt_or_eq.mp h with h1 | h1
        · exact h1
        · exact absurd h1 hr

/-- The outer loop of `buildMatrix` builds the first `I*x` rows of the closed form. -/
theorem buildMatrix_outer (y x : Nat) (st : Grid) :
    ∀ I, I ≤ y → ∀ r c,
      ((List.range I).foldl (fun m i =>
        (List.range x).foldl (fun m j => buildCell y x st i j m) m)
        (fun _ _ => 0)) r c
        = if r < I * x then buildEntry y x st r c else 0 := by
  intro I
  induction I with
  | zero => intro _ r c; simp
  | succ I ih =>
    intro hI r c
    have hIy : I < y := Nat.lt_of_succ_le hI
    rw [foldl_range_succ]
    have h1 := buildMatrix_inner y x st I hIy _
      (fun r c => ih (Nat.le_of_lt hIy) r c) x (Nat.le_refl x) r c
    rw [h1]
    refine if_congr ?_ rfl rfl
    rw [Nat.succ_mul]

/-- Closed form of the built matrix. -/
theorem buildMatrix_apply (y x : Nat) (st : Grid) (r c : Nat) :
    buildMatrix y x st r c = buildEntry y x st r c := by
  show ((List.range y).foldl (fun m i =>
      (List.range x).foldl (fun m j => buildCell y x st i j m) m)
      (fun _ _ => 0)) r c = _
  rw [buildMatrix_outer y x st y (Nat.le_refl y) r c]
  by_cases h : r < y * x
  · rw [if_pos h]
  · rw [if_neg h]
    unfold buildEntry
    rw [if_neg h]

end BuilderClosedForm

section ElimLemmas

/-- Closed form for the inner xor loop: row `tgt` gets row `src` xored into it on
columns `col..hi`; nothing else changes. -/
theorem xorRowFrom_apply (m : Mat) (tgt src col hi : Nat) (hne : tgt ≠ src) (r c : Nat) :
    xorRowFrom m tgt src col hi r c
      = if r = tgt ∧ col ≤ c ∧ c ≤ hi then m r c ^^^ m src c else m r c := by
  have key : ∀ K, K ≤ hi + 1 - col → ∀ r c,
      ((List.range K).foldl
        (fun mm k => setEntry mm tgt (col + k) (mm tgt (col + k) ^^^ mm src (col + k))) m) r c
        = if r = tgt ∧ col ≤ c ∧ c < col + K then m r c ^^^ m src c else m r c := by
    intro K
    induction K with
    | zero =>
      intro _ r c
      have : ¬(r = tgt ∧ col ≤ c ∧ c < col + 0) := by
        rintro ⟨-, h1, h2⟩; omega
      rw [if_neg this]
      simp
    | succ K ih =>
      intro hK r c
      have hK1 : K ≤ hi + 1 - col := Nat.le_of_succ_le hK
      rw [foldl_range_succ]
      show (if r = tgt ∧ c = col + K then _ else _) = _
      by_cases h1 : r = tgt ∧ c = col + K
      · rw [if_pos h1]
        rw [ih hK1 tgt (col + K), ih hK1 src (col + K)]
        have e1 : ¬(tgt = tgt ∧ col ≤ col + K ∧ col + K < col + K) := by
          rintro ⟨-, -, h⟩; omega
        have e2 : ¬(src = tgt ∧ col ≤ col + K ∧ col + K < col + K) := by
          rintro ⟨h, -, -⟩; exact hne h.symm
        rw [if_neg e1, if_neg e2, h1.1, h1.2]
        rw [if_pos ⟨rfl, Nat.le_add_right col K, Nat.add_lt_add_left (Nat.lt_succ_self K) col⟩]
      · rw [if_neg h1, ih hK1 r c]
        refine if_congr ?_ rfl rfl
        constructor
        · rintro ⟨ht, hc1, hc2⟩
          exact ⟨ht, hc1, Nat.lt_succ_of_lt hc2⟩
        · rintro ⟨ht, hc1, hc2⟩
          refine ⟨ht, hc1, ?_⟩
          rcases Nat.lt_succ_iff_lt_or_eq.mp hc2 with h | h
          · exact h
          · exact absurd ⟨ht, h⟩ h1
  show ((List.range (hi + 1 - col)).foldl _ m) r c = _
  rw [key (hi + 1 - col) (Nat.le_refl _) r c]
  refine if_congr ?_ rfl rfl
  constructor
  · rintro ⟨ht, hc1, hc2⟩
    exact ⟨ht, hc1, by omega⟩
  · rintro ⟨ht, hc1, hc2⟩
    exact ⟨ht, hc1, by omega⟩

/-- Closed form for the outer elimination loop: every row `r < n` other than
`row` whose entry in column `col` is 1 gets row `row` xored into it on columns
`col..n`. -/
theorem elimOthers_apply (n col row : Nat) (m : Mat) (r c : Nat) :
    elimOthers n col row m r c
      = if r < n ∧ r ≠ row ∧ m r col = 1 ∧ col ≤ c ∧ c ≤ n
        then m r c ^^^ m row c else m r c := by
  have key : ∀ K, ∀ r c,
      ((List.range K).foldl
        (fun mm r => if r ≠ row ∧ mm r col = 1 then xorRowFrom mm r row col n else mm) m) r c
        = if r < K ∧ r ≠ row ∧ m r col = 1 ∧ col ≤ c ∧ c ≤ n
          then m r c ^^^ m row c else m r c := by
    intro K
    induction K with
    | zero =>
      intro r c
      have : ¬(r < 0 ∧ r ≠ row ∧ m r col = 1 ∧ col ≤ c ∧ c ≤ n) := by
        rintro ⟨h, -⟩; omega
      rw [if_neg this]
      simp
    | succ K ih =>
      intro r c
      rw [foldl_range_succ]
      have hKcol : ((List.range K).foldl
          (fun mm r => if r ≠ row ∧ mm r col = 1 then xorRowFrom mm r row col n else mm) m)
          K col = m K col := by
        rw [ih K col]
        have : ¬(K < K ∧ K ≠ row ∧ m K col = 1 ∧ col ≤ col ∧ col ≤ n) := by
          rintro ⟨h, -⟩; omega
        rw [if_neg this]
      simp only [hKcol]
      by_cases hg : K ≠ row ∧ m K col = 1
      · rw [if_pos hg, xorRowFrom_apply _ _ _ _ _ hg.1, ih r c, ih row c]
        have erow : ¬(row < K ∧ row ≠ row ∧ m row col = 1 ∧ col ≤ c ∧ c ≤ n) := by
          rintro ⟨-, h, -⟩; exact h rfl
        rw [if_neg erow]
        by_cases h1 : r = K ∧ col ≤ c ∧ c ≤ n
        · have hrK : r = K := h1.1
          have eK : ¬(r < K ∧ r ≠ row ∧ m r col = 1 ∧ col ≤ c ∧ c ≤ n) := by
            intro hh
            have h1K : K < K := by rw [hrK] at hh; exact hh.1
            exact Nat.lt_irrefl K h1K
          rw [if_pos h1, if_neg eK,
            if_pos ⟨by rw [hrK]; exact Nat.lt_succ_self K, by rw [hrK]; exact hg.1,
              by rw [hrK]; exact hg.2, h1.2.1, h1.2.2⟩]
        · rw [if_neg h1]
          by_cases h2 : r < K ∧ r ≠ row ∧ m r col = 1 ∧ col ≤ c ∧ c ≤ n
          · rw [if_pos h2, if_pos ⟨Nat.lt_succ_of_lt h2.1, h2.2⟩]
          · rw [if_neg h2]
            have : ¬(r < K + 1 ∧ r ≠ row ∧ m r col = 1 ∧ col ≤ c ∧ c ≤ n) := by
              rintro ⟨ha, hb, hc, hd, he⟩
              rcases Nat.lt_succ_iff_lt_or_eq.mp ha with h | h
              · exact h2 ⟨h, hb, hc, hd, he⟩
              · subst h
                exact h1 ⟨rfl, hd, he⟩
            rw [if_neg this]
      · rw [if_neg hg, ih r c]
        by_cases h2 : r < K ∧ r ≠ row ∧ m r col = 1 ∧ col ≤ c ∧ c ≤ n
        · rw [if_pos h2, if_pos ⟨Nat.lt_succ_of_lt h2.1, h2.2⟩]
        · rw [if_neg h2]
          have : ¬(r < K + 1 ∧ r ≠ row ∧ m r col = 1 ∧ col ≤ c ∧ c ≤ n) := by
            rintro ⟨ha, hb, hc, hd, he⟩
            rcases Nat.lt_succ_iff_lt_or_eq.mp ha with h | h
            · exact h2 ⟨h, hb, hc, hd, he⟩
            · subst h
              exact hg ⟨hb, hc⟩
          rw [if_neg this]
  show ((List.range n).foldl _ m) r c = _
  rw [key n r c]

end ElimLemmas

section GaussBasics

/-- The row-index permutation used by `swapRows` is an involution. -/
theorem swap_invol (r1 r2 r : Nat) :
    (if (if r = r1 then r2 else if r = r2 then r1 else r) = r1 then r2
     else if (if r = r1 then r2 else if r = r2 then r1 else r) = r2 then r1
     else (if r = r1 then r2 else if r = r2 then r1 else r)) = r := by
  by_cases e1 : r = r1 <;> by_cases e2 : r = r2 <;> by_cases e3 : r2 = r1 <;>
    simp [e1, e2, e3]

/-- Swapping a row with itself changes nothing. -/
theorem swapRows_self (m : Mat) (r1 : Nat) : swapRows m r1 r1 = m := by
  funext r c
  show m (if r = r1 then r1 else if r = r1 then r1 else r) c = m r c
  by_cases h : r = r1
  · rw [if_pos h, h]
  · rw [if_neg h, if_neg h]

/-- A successful pivot search returns an in-range row whose entry is 1. -/
theorem findPivot_some {n : Nat} {m : Mat} {col row p : Nat}
    (h : findPivot n m col row = some p) :
    row ≤ p ∧ p < n ∧ m p col = 1 := by
  unfold findPivot at h
  have hmem := List.mem_of_find?_eq_some h
  have hpred := List.find?_some h
  rw [List.mem_range'_1] at hmem
  exact ⟨hmem.1, by omega, beq_iff_eq.mp hpred⟩

/-- A failed pivot search means no row at or below `row` has a 1 in the column. -/
theorem findPivot_none {n : Nat} {m : Mat} {col row : Nat}
    (h : findPivot n m col row = none) :
    ∀ r, row ≤ r → r < n → m r col ≠ 1 := by
  intro r hr1 hr2 hcon
  unfold findPivot at h
  rw [List.find?_eq_none] at h
  have hmem : r ∈ List.range' row (n - row) := by
    rw [List.mem_range'_1]; omega
  exact h r hmem (beq_iff_eq.mpr hcon)

/-- The consistency check passes exactly when no eliminated-out row demands 1. -/
theorem hasBadRow_false_iff (n : Nat) (m : Mat) (row : Nat) :
    hasBadRow n m row = false ↔ ∀ r, row ≤ r → r < n → m r n ≠ 1 := by
  unfold hasBadRow
  constructor
  · intro h r h1 h2 hcon
    have hmem : r ∈ List.range' row (n - row) := by
      rw [List.mem_range'_1]; omega
    have hany : (List.range' row (n - row)).any (fun r => m r n == 1) = true :=
      List.any_eq_true.mpr ⟨r, hmem, beq_iff_eq.mpr hcon⟩
    rw [h] at hany
    exact Bool.false_ne_true hany
  · intro h
    by_contra hne
    have hany : (List.range' row (n - row)).any (fun r => m r n == 1) = true := by
      cases hb : (List.range' row (n - row)).any (fun r => m r n == 1)
      · exact absurd hb hne
      · rfl
    obtain ⟨r, hmem, hpred⟩ := List.any_eq_true.mp hany
    rw [List.mem_range'_1] at hmem
    exact h r hmem.1 (by omega) (beq_iff_eq.mp hpred)

end GaussBasics

section CastHelpers

theorem bitZ_xor (a b : Bool) : bitZ (Bool.xor a b) = bitZ a + bitZ b := by
  cases a <;> cases b <;> decide

theorem bitZ_eq_zero {b : Bool} : bitZ b = 0 ↔ b = false := by
  cases b <;> decide

theorem natCast_xor_le_one {a b : Nat} (ha : a ≤ 1) (hb : b ≤ 1) :
    ((a ^^^ b : Nat) : ZMod 2) = (a : ZMod 2) + (b : ZMod 2) := by
  rcases Nat.le_one_iff_eq_zero_or_eq_one.mp ha with rfl | rfl <;>
    rcases Nat.le_one_iff_eq_zero_or_eq_one.mp hb with rfl | rfl <;> decide

theorem xor_le_one {a b : Nat} (ha : a ≤ 1) (hb : b ≤ 1) : a ^^^ b ≤ 1 := by
  rcases Nat.le_one_iff_eq_zero_or_eq_one.mp ha with rfl | rfl <;>
    rcases Nat.le_one_iff_eq_zero_or_eq_one.mp hb with rfl | rfl <;> decide

theorem cast_eq_one_of_le_one {a : Nat} (h1 : a = 1) : (a : ZMod 2) = 1 := by
  rw [h1, Nat.cast_one]

theorem eq_zero_of_cast_zero {a : Nat} (h : a ≤ 1) (hz : (a : ZMod 2) = 0) : a = 0 := by
  rcases Nat.le_one_iff_eq_zero_or_eq_one.mp h with rfl | rfl
  · rfl
  · exfalso
    rw [Nat.cast_one] at hz
    exact one_ne_zero hz

theorem zmod_two_add_self (z : ZMod 2) : z + z = 0 := by
  revert z; decide

end CastHelpers

section SatPreservation

/-- Swapping two rows of the augmented matrix does not change its solution set. -/
theorem sat_swap {n : Nat} (m : Mat) {r1 r2 : Nat} (h1 : r1 < n) (h2 : r2 < n)
    (s : Nat → Nat) :
    Sat n (swapRows m r1 r2) s ↔ Sat n m s := by
  have hlt : ∀ r, r < n → (if r = r1 then r2 else if r = r2 then r1 else r) < n := by
    intro r hr
    by_cases e1 : r = r1
    · rw [if_pos e1]; exact h2
    · rw [if_neg e1]
      by_cases e2 : r = r2
      · rw [if_pos e2]; exact h1
      · rw [if_neg e2]; exact hr
  constructor
  · intro hs r hr
    have hrow := hs (if r = r1 then r2 else if r = r2 then r1 else r) (hlt r hr)
    have hentry : ∀ c,
        swapRows m r1 r2 (if r = r1 then r2 else if r = r2 then r1 else r) c = m r c := by
      intro c
      show m (if (if r = r1 then r2 else if r = r2 then r1 else r) = r1 then r2
        else if (if r = r1 then r2 else if r = r2 then r1 else r) = r2 then r1
        else (if r = r1 then r2 else if r = r2 then r1 else r)) c = m r c
      rw [swap_invol]
    calc (∑ c ∈ Finset.range n, (m r c : ZMod 2) * (s c : ZMod 2))
        = ∑ c ∈ Finset.range n,
            (swapRows m r1 r2 (if r = r1 then r2 else if r = r2 then r1 else r) c : ZMod 2)
              * (s c : ZMod 2) := by
          refine Finset.sum_congr rfl ?_
          intro c _
          rw [hentry c]
      _ = (swapRows m r1 r2 (if r = r1 then r2 else if r = r2 then r1 else r) n : ZMod 2) :=
          hrow
      _ = (m r n : ZMod 2) := by rw [hentry n]
  · intro hs r hr
    have hrow := hs (if r = r1 then r2 else if r = r2 then r1 else r) (hlt r hr)
    have hentry : ∀ c,
        swapRows m r1 r2 r c = m (if r = r1 then r2 else if r = r2 then r1 else r) c :=
      fun c => rfl
    calc (∑ c ∈ Finset.range n, (swapRows m r1 r2 r c : ZMod 2) * (s c : ZMod 2))
        = ∑ c ∈ Finset.range n,
            (m (if r = r1 then r2 else if r = r2 then r1 else r) c : ZMod 2)
              * (s c : ZMod 2) := by
          refine Finset.sum_congr rfl ?_
          intro c _
          rw [hentry c]
      _ = (m (if r = r1 then r2 else if r = r2 then r1 else r) n : ZMod 2) := hrow
      _ = (swapRows m r1 r2 r n : ZMod 2) := by rw [hentry n]

/-- Eliminating a column by xoring the pivot row into other rows does not change
the solution set, provided the pivot row has only zeros left of the column (so
that xoring from `col` onward is the same as adding the whole pivot row). -/
theorem sat_elim {n col rowp : Nat} (m : Mat) (hrow : rowp < n)
    (hlow : ∀ c, c < col → m rowp c = 0)
    (hbnd : ∀ r c, r < n → c ≤ n → m r c ≤ 1) (s : Nat → Nat) :
    Sat n (elimOthers n col rowp m) s ↔ Sat n m s := by
  have hrel : ∀ r c, r < n → c ≤ n → r ≠ rowp → m r col = 1 →
      ((elimOthers n col rowp m) r c : ZMod 2) = (m r c : ZMod 2) + (m rowp c : ZMod 2) := by
    intro r c hr hc hne hcol1
    rw [elimOthers_apply]
    by_cases hcc : col ≤ c
    · rw [if_pos ⟨hr, hne, hcol1, hcc, hc⟩]
      exact natCast_xor_le_one (hbnd r c hr hc) (hbnd rowp c hrow hc)
    · rw [if_neg (by rintro ⟨-, -, -, hx, -⟩; exact hcc hx)]
      rw [hlow c (Nat.lt_of_not_le hcc), Nat.cast_zero, add_zero]
  have hsame : ∀ r c, ¬(r ≠ rowp ∧ m r col = 1) → (elimOthers n col rowp m) r c = m r c := by
    intro r c hno
    rw [elimOthers_apply]
    rw [if_neg (by rintro ⟨-, hx1, hx2, -⟩; exact hno ⟨hx1, hx2⟩)]
  have hrowp : ∀ c, (elimOthers n col rowp m) rowp c = m rowp c := by
    intro c
    exact hsame rowp c (by rintro ⟨hx, -⟩; exact hx rfl)
  constructor
  · intro hs r hr
    have hpiv2 : (∑ c ∈ Finset.range n, (m rowp c : ZMod 2) * (s c : ZMod 2))
        = (m rowp n : ZMod 2) := by
      have hpiv := hs rowp hrow
      calc (∑ c ∈ Finset.range n, (m rowp c : ZMod 2) * (s c : ZMod 2))
          = ∑ c ∈ Finset.range n,
              ((elimOthers n col rowp m) rowp c : ZMod 2) * (s c : ZMod 2) := by
            refine Finset.sum_congr rfl ?_
            intro c _
            rw [hrowp c]
        _ = ((elimOthers n col rowp m) rowp n : ZMod 2) := hpiv
        _ = (m rowp n : ZMod 2) := by rw [hrowp n]
    by_cases hch : r ≠ rowp ∧ m r col = 1
    · have hmain := hs r hr
      have hexp : (∑ c ∈ Finset.range n,
            ((elimOthers n col rowp m) r c : ZMod 2) * (s c : ZMod 2))
          = (∑ c ∈ Finset.range n, (m r c : ZMod 2) * (s c : ZMod 2))
            + (∑ c ∈ Finset.range n, (m rowp c : ZMod 2) * (s c : ZMod 2)) := by
        rw [← Finset.sum_add_distrib]
        refine Finset.sum_congr rfl ?_
        intro c hc
        rw [hrel r c hr (Nat.le_of_lt (Finset.mem_range.mp hc)) hch.1 hch.2, add_mul]
      rw [hexp, hpiv2] at hmain
      rw [hrel r n hr (Nat.le_refl n) hch.1 hch.2] at hmain
      exact add_right_cancel hmain
    · have hmain := hs r hr
      calc (∑ c ∈ Finset.range n, (m r c : ZMod 2) * (s c : ZMod 2))
          = ∑ c ∈ Finset.range n,
              ((elimOthers n col rowp m) r c : ZMod 2) * (s c : ZMod 2) := by
            refine Finset.sum_congr rfl ?_
            intro c _
            rw [hsame r c hch]
        _ = ((elimOthers n col rowp m) r n : ZMod 2) := hmain
        _ = (m r n : ZMod 2) := by rw [hsame r n hch]
  · intro hs r hr
    by_cases hch : r ≠ rowp ∧ m r col = 1
    · have hexp : (∑ c ∈ Finset.range n,
            ((elimOthers n col rowp m) r c : ZMod 2) * (s c : ZMod 2))
          = (∑ c ∈ Finset.range n, (m r c : ZMod 2) * (s c : ZMod 2))
            + (∑ c ∈ Finset.range n, (m rowp c : ZMod 2) * (s c : ZMod 2)) := by
        rw [← Finset.sum_add_distrib]
        refine Finset.sum_congr rfl ?_
        intro c hc
        rw [hrel r c hr (Nat.le_of_lt (Finset.mem_range.mp hc)) hch.1 hch.2, add_mul]
      rw [hexp, hs r hr, hs rowp hrow, hrel r n hr (Nat.le_refl n) hch.1 hch.2]
    · calc (∑ c ∈ Finset.range n,
            ((elimOthers n col rowp m) r c : ZMod 2) * (s c : ZMod 2))
          = ∑ c ∈ Finset.range n, (m r c : ZMod 2) * (s c : ZMod 2) := by
            refine Finset.sum_congr rfl ?_
            intro c _
            rw [hsame r c hch]
        _ = (m r n : ZMod 2) := hs r hr
        _ = ((elimOthers n col rowp m) r n : ZMod 2) := by rw [hsame r n hch]

end SatPreservation

section GaussInvariant

theorem succ_shift (a b : Nat) : a + (b + 1) = (a + 1) + b := by
  omega

/-- A pivotless column extends the invariant to the next column unchanged. -/
theorem gauss_step_none {n : Nat} {m0 : Mat} {col row : Nat}
    {index : Nat → Option Nat} {m : Mat}
    (hinv : GaussInv n m0 col row index m) (hguard : col < n ∧ row < n)
    (hnp : ∀ r, row ≤ r → r < n → m r col ≠ 1) :
    GaussInv n m0 (col + 1) row index m := by
  refine ⟨hinv.row_le, hinv.equiv, ?_, ?_, hinv.surj, hinv.inj, hinv.bounded, ?_⟩
  · intro r c h1 h2 h3
    rcases Nat.lt_succ_iff_lt_or_eq.mp h3 with h | h
    · exact hinv.lowzero r c h1 h2 h
    · subst h
      have hb := hinv.bounded r c h2 (Nat.le_of_lt hguard.1)
      rcases Nat.le_one_iff_eq_zero_or_eq_one.mp hb with h0 | hone
      · exact h0
      · exact absurd hone (hnp r h1 h2)
  · intro c pr hc
    obtain ⟨a, b, d, e⟩ := hinv.pivots c pr hc
    exact ⟨a, Nat.lt_succ_of_lt b, d, e⟩
  · intro c hc
    exact hinv.highNone c (Nat.le_of_succ_le hc)

/-- The main step: a pivot found at `pivot ≥ row` is swapped up, recorded and its
column eliminated everywhere else; the invariant moves to `(col+1, row+1)`. -/
theorem gauss_step {n : Nat} {m0 : Mat} {col row pivot : Nat}
    {index : Nat → Option Nat} {m : Mat}
    (hinv : GaussInv n m0 col row index m) (hguard : col < n ∧ row < n)
    (hrp : row ≤ pivot) (hpn : pivot < n) (hp1 : m pivot col = 1) :
    GaussInv n m0 (col + 1) (row + 1)
      (fun c => if c = col then some row else index c)
      (elimOthers n col row (swapRows m row pivot)) := by
  have hrown : row < n := hguard.2
  have hcolle : col ≤ n := Nat.le_of_lt hguard.1
  have A1 : ∀ c, swapRows m row pivot row c = m pivot c := by
    intro c
    show m (if row = row then pivot else if row = pivot then row else row) c = _
    rw [if_pos rfl]
  have A2 : ∀ r c, r < row → swapRows m row pivot r c = m r c := by
    intro r c hr
    show m (if r = row then pivot else if r = pivot then row else r) c = _
    rw [if_neg (Nat.ne_of_lt hr), if_neg (Nat.ne_of_lt (Nat.lt_of_lt_of_le hr hrp))]
  have A4 : ∀ r c, row ≤ r → r < n → c < col → swapRows m row pivot r c = 0 := by
    intro r c h1 h2 h3
    show m (if r = row then pivot else if r = pivot then row else r) c = 0
    by_cases e1 : r = row
    · rw [if_pos e1]
      exact hinv.lowzero pivot c hrp hpn h3
    · rw [if_neg e1]
      by_cases e2 : r = pivot
      · rw [if_pos e2]
        exact hinv.lowzero row c (Nat.le_refl row) hrown h3
      · rw [if_neg e2]
        exact hinv.lowzero r c h1 h2 h3
  have A5 : ∀ r c, r < n → c ≤ n → swapRows m row pivot r c ≤ 1 := by
    intro r c h1 h2
    show m (if r = row then pivot else if r = pivot then row else r) c ≤ 1
    by_cases e1 : r = row
    · rw [if_pos e1]
      exact hinv.bounded pivot c hpn h2
    · rw [if_neg e1]
      by_cases e2 : r = pivot
      · rw [if_pos e2]
        exact hinv.bounded row c hrown h2
      · rw [if_neg e2]
        exact hinv.bounded r c h1 h2
  have A6 : swapRows m row pivot row col = 1 := by
    rw [A1]
    exact hp1
  have A7 : ∀ c, c < col → swapRows m row pivot row c = 0 := by
    intro c hc
    rw [A1]
    exact hinv.lowzero pivot c hrp hpn hc
  have B1 : ∀ c, elimOthers n col row (swapRows m row pivot) row c
      = swapRows m row pivot row c := by
    intro c
    rw [elimOthers_apply]
    rw [if_neg (by rintro ⟨-, hx, -⟩; exact hx rfl)]
  have B2 : ∀ r c, c < col → elimOthers n col row (swapRows m row pivot) r c
      = swapRows m row pivot r c := by
    intro r c hc
    rw [elimOthers_apply]
    rw [if_neg (by rintro ⟨-, -, -, hx, -⟩; exact Nat.lt_irrefl c (Nat.lt_of_lt_of_le hc hx))]
  have B3 : ∀ r, r < n → r ≠ row → elimOthers n col row (swapRows m row pivot) r col = 0 := by
    intro r hr hne
    rw [elimOthers_apply]
    by_cases h1 : swapRows m row pivot r col = 1
    · rw [if_pos ⟨hr, hne, h1, Nat.le_refl col, hcolle⟩, h1, A6]
      rfl
    · rw [if_neg (by rintro ⟨-, -, hx, -⟩; exact h1 hx)]
      have hb := A5 r col hr hcolle
      rcases Nat.le_one_iff_eq_zero_or_eq_one.mp hb with h0 | hone
      · exact h0
      · exact absurd hone h1
  have B4 : ∀ r c, r < n → c ≤ n → elimOthers n col row (swapRows m row pivot) r c ≤ 1 := by
    intro r c hr hc
    rw [elimOthers_apply]
    by_cases hcond : r < n ∧ r ≠ row ∧ swapRows m row pivot r col = 1 ∧ col ≤ c ∧ c ≤ n
    · rw [if_pos hcond]
      exact xor_le_one (A5 r c hr hc) (A5 row c hrown hc)
    · rw [if_neg hcond]
      exact A5 r c hr hc
  refine ⟨Nat.succ_le_of_lt hrown, ?_, ?_, ?_, ?_, ?_, B4, ?_⟩
  · intro s
    exact (hinv.equiv s).trans ((sat_swap m hrown hpn s).symm.trans
      (sat_elim (swapRows m row pivot) hrown A7 A5 s).symm)
  · intro r c h1 h2 h3
    have hrr : row ≤ r := Nat.le_of_succ_le h1
    rcases Nat.lt_succ_iff_lt_or_eq.mp h3 with h | h
    · rw [B2 r c h]
      exact A4 r c hrr h2 h
    · subst h
      exact B3 r h2 ((Nat.ne_of_lt (Nat.lt_of_succ_le h1)).symm)
  · intro c pr hc
    by_cases hcc : c = col
    · have hc1 : (if c = col then some row else index c) = some pr := hc
      rw [if_pos hcc] at hc1
      have hpr : pr = row := (Option.some.inj hc1).symm
      subst hpr
      refine ⟨Nat.lt_succ_self pr, by rw [hcc]; exact Nat.lt_succ_self col, ?_, ?_⟩
      · rw [hcc, B1 col]
        exact A6
      · intro r hr hne
        rw [hcc]
        exact B3 r hr hne
    · have hc1 : (if c = col then some row else index c) = some pr := hc
      rw [if_neg hcc] at hc1
      obtain ⟨h1, h2, h3, h4⟩ := hinv.pivots c pr hc1
      refine ⟨Nat.lt_succ_of_lt h1, Nat.lt_succ_of_lt h2, ?_, ?_⟩
      · rw [B2 pr c h2, A2 pr c h1]
        exact h3
      · intro r hr hne
        rw [B2 r c h2]
        show m (if r = row then pivot else if r = pivot then row else r) c = 0
        by_cases e1 : r = row
        · rw [if_pos e1]
          exact h4 pivot hpn (Nat.ne_of_gt (Nat.lt_of_lt_of_le h1 hrp))
        · rw [if_neg e1]
          by_cases e2 : r = pivot
          · rw [if_pos e2]
            exact h4 row hrown (Nat.ne_of_gt h1)
          · rw [if_neg e2]
            exact h4 r hr hne
  · intro r hr
    rcases Nat.lt_succ_iff_lt_or_eq.mp hr with h | h
    · obtain ⟨c, hcr⟩ := hinv.surj r h
      have hcne : c ≠ col := by
        intro hh
        rw [hh, hinv.highNone col (Nat.le_refl col)] at hcr
        exact Option.noConfusion hcr
      refine ⟨c, ?_⟩
      show (if c = col then some row else index c) = some r
      rw [if_neg hcne]
      exact hcr
    · refine ⟨col, ?_⟩
      show (if col = col then some row else index col) = some r
      rw [if_pos rfl, h]
  · intro c c1 pr hc hc1
    have hcA : (if c = col then some row else index c) = some pr := hc
    have hcB : (if c1 = col then some row else index c1) = some pr := hc1
    by_cases e1 : c = col <;> by_cases e2 : c1 = col
    · rw [e1, e2]
    · rw [if_pos e1] at hcA
      rw [if_neg e2] at hcB
      have hpr : pr = row := (Option.some.inj hcA).symm
      obtain ⟨h1, -⟩ := hinv.pivots c1 pr hcB
      rw [hpr] at h1
      exact absurd h1 (Nat.lt_irrefl row)
    · rw [if_neg e1] at hcA
      rw [if_pos e2] at hcB
      have hpr : pr = row := (Option.some.inj hcB).symm
      obtain ⟨h1, -⟩ := hinv.pivots c pr hcA
      rw [hpr] at h1
      exact absurd h1 (Nat.lt_irrefl row)
    · rw [if_neg e1] at hcA
      rw [if_neg e2] at hcB
      exact hinv.inj c c1 pr hcA hcB
  · intro c hc
    have hcne : c ≠ col := by
      intro hh
      rw [hh] at hc
      exact Nat.lt_irrefl col (Nat.lt_of_succ_le hc)
    show (if c = col then some row else index c) = none
    rw [if_neg hcne]
    exact hinv.highNone c (Nat.le_of_succ_le hc)

/-- At loop exit the invariant yields the final elimination facts. -/
theorem gaussFinal_of_inv {n : Nat} {m0 : Mat} {col row : Nat}
    {index : Nat → Option Nat} {m : Mat}
    (hinv : GaussInv n m0 col row index m) (hcol : col ≤ n)
    (hend : n ≤ col ∨ n ≤ row) : GaussFinal n m0 row index m := by
  refine ⟨hinv.row_le, hinv.equiv, ?_, ?_, hinv.surj, hinv.inj, hinv.bounded⟩
  · intro r c h1 h2 h3
    rcases hend with h | h
    · exact hinv.lowzero r c h1 h2 (Nat.lt_of_lt_of_le h3 h)
    · exact absurd h2 (Nat.not_lt.mpr (Nat.le_trans h h1))
  · intro c pr hc
    obtain ⟨h1, h2, h3, h4⟩ := hinv.pivots c pr hc
    exact ⟨h1, Nat.lt_of_lt_of_le h2 hcol, h3, h4⟩

/-- Running the column loop from any invariant state lands in a final state. -/
theorem gaussGo_final {n : Nat} (m0 : Mat) :
    ∀ fuel col row index m, col ≤ n → n ≤ col + fuel →
      GaussInv n m0 col row index m →
      GaussFinal n m0 (gaussGo n fuel col row index m).1
        (gaussGo n fuel col row index m).2.1 (gaussGo n fuel col row index m).2.2 := by
  intro fuel
  induction fuel with
  | zero =>
    intro col row index m hcol hfuel hinv
    exact gaussFinal_of_inv hinv hcol (Or.inl hfuel)
  | succ fuel ih =>
    intro col row index m hcol hfuel hinv
    by_cases hguard : col < n ∧ row < n
    · cases hfp : findPivot n m col row with
      | none =>
        simp only [gaussGo]
        rw [if_pos hguard, hfp]
        exact ih (col + 1) row index m (Nat.succ_le_of_lt hguard.1)
          (Nat.le_trans hfuel (Nat.le_of_eq (succ_shift col fuel)))
          (gauss_step_none hinv hguard (findPivot_none hfp))
      | some pivot =>
        obtain ⟨hrp, hpn, hp1⟩ := findPivot_some hfp
        simp only [gaussGo]
        rw [if_pos hguard, hfp]
        show GaussFinal n m0
          (gaussGo n fuel (col + 1) (row + 1)
            (fun c => if c = col then some row else index c)
            (elimOthers n col row
              (if pivot ≠ row then swapRows m row pivot else m))).1
          (gaussGo n fuel (col + 1) (row + 1)
            (fun c => if c = col then some row else index c)
            (elimOthers n col row
              (if pivot ≠ row then swapRows m row pivot else m))).2.1
          (gaussGo n fuel (col + 1) (row + 1)
            (fun c => if c = col then some row else index c)
            (elimOthers n col row
              (if pivot ≠ row then swapRows m row pivot else m))).2.2
        have hm1eq : (if pivot ≠ row then swapRows m row pivot else m)
            = swapRows m row pivot := by
          by_cases hpr : pivot = row
          · rw [if_neg (by intro hh; exact hh hpr), hpr, swapRows_self]
          · rw [if_pos hpr]
        rw [hm1eq]
        exact ih (col + 1) (row + 1) _ _ (Nat.succ_le_of_lt hguard.1)
          (Nat.le_trans hfuel (Nat.le_of_eq (succ_shift col fuel)))
          (gauss_step hinv hguard hrp hpn hp1)
    · simp only [gaussGo]
      rw [if_neg hguard]
      rcases Nat.lt_or_ge col n with hcn | hcn
      · have hrn : n ≤ row := by
          rcases Nat.lt_or_ge row n with hr | hr
          · exact absurd ⟨hcn, hr⟩ hguard
          · exact hr
        exact gaussFinal_of_inv hinv hcol (Or.inr hrn)
      · exact gaussFinal_of_inv hinv hcol (Or.inl hcn)

/-- The complete elimination of a 0/1 matrix satisfies the final facts. -/
theorem gauss_final {n : Nat} (m0 : Mat) (hbnd : ∀ r c, r < n → c ≤ n → m0 r c ≤ 1) :
    GaussFinal n m0 (gauss n m0).1 (gauss n m0).2.1 (gauss n m0).2.2 := by
  have hinit : GaussInv n m0 0 0 (fun _ => none) m0 := by
    refine ⟨Nat.zero_le n, fun s => Iff.rfl, ?_, ?_, ?_, ?_, hbnd, fun c _ => rfl⟩
    · intro r c h1 h2 h3
      exact absurd h3 (Nat.not_lt_zero c)
    · intro c pr hc
      exact Option.noConfusion hc
    · intro r hr
      exact absurd hr (Nat.not_lt_zero r)
    · intro c c1 pr hc hc1
      exact Option.noConfusion hc
  exact gaussGo_final m0 n 0 0 (fun _ => none) m0 (Nat.zero_le n)
    (Nat.le_of_eq (Nat.zero_add n).symm) hinit

end GaussInvariant

section GaussCorrectness

/-- The extracted solution bits are 0/1. -/
theorem solVec_le_one {n : Nat} {m0 : Mat} {row : Nat} {index : Nat → Option Nat}
    {m : Mat} (hfin : GaussFinal n m0 row index m) :
    ∀ q, solVec n index m q ≤ 1 := by
  intro q
  unfold solVec
  cases hidx : index q with
  | none => exact Nat.zero_le 1
  | some pr =>
    obtain ⟨h1, -, -, -⟩ := hfin.pivots q pr hidx
    exact hfin.bounded pr n (Nat.lt_of_lt_of_le h1 hfin.row_le) (Nat.le_refl n)

/-- When the consistency check passes, the extracted vector solves the original
system. -/
theorem gauss_solution {n : Nat} {m0 : Mat} {row : Nat} {index : Nat → Option Nat}
    {m : Mat} (hfin : GaussFinal n m0 row index m)
    (hok : hasBadRow n m row = false) :
    Sat n m0 (solVec n index m) := by
  apply (hfin.equiv (solVec n index m)).mpr
  intro r hr
  by_cases hrrow : r < row
  · obtain ⟨c0, hc0⟩ := hfin.surj r hrrow
    obtain ⟨hpr, hc0n, hm1, huniq⟩ := hfin.pivots c0 r hc0
    have hs : (∑ c ∈ Finset.range n, (m r c : ZMod 2) * (solVec n index m c : ZMod 2))
        = (m r c0 : ZMod 2) * (solVec n index m c0 : ZMod 2) := by
      apply Finset.sum_eq_single_of_mem c0 (Finset.mem_range.mpr hc0n)
      intro c hcmem hcne
      cases hidx : index c with
      | none =>
        have hz : solVec n index m c = 0 := by
          unfold solVec
          rw [hidx]
        rw [hz, Nat.cast_zero, mul_zero]
      | some pr =>
        have hne : r ≠ pr := by
          intro hh
          rw [← hh] at hidx
          exact hcne (hfin.inj c c0 r hidx hc0)
        have hz := (hfin.pivots c pr hidx).2.2.2 r hr hne
        rw [hz, Nat.cast_zero, zero_mul]
    rw [hs]
    have hsol : solVec n index m c0 = m r n := by
      unfold solVec
      rw [hc0]
    rw [hm1, hsol, Nat.cast_one, one_mul]
  · have hge : row ≤ r := Nat.le_of_not_lt hrrow
    have hzero : ∀ c ∈ Finset.range n, (m r c : ZMod 2) * (solVec n index m c : ZMod 2) = 0 := by
      intro c hcmem
      rw [hfin.lowzero r c hge hr (Finset.mem_range.mp hcmem), Nat.cast_zero, zero_mul]
    rw [Finset.sum_eq_zero hzero]
    have hbad := (hasBadRow_false_iff n m row).mp hok r hge hr
    have hb := hfin.bounded r n hr (Nat.le_refl n)
    rcases Nat.le_one_iff_eq_zero_or_eq_one.mp hb with h0 | h1
    · rw [h0, Nat.cast_zero]
    · exact absurd h1 hbad

/-- If the original system has any solution, the consistency check passes. -/
theorem gauss_consistent {n : Nat} {m0 : Mat} {row : Nat} {index : Nat → Option Nat}
    {m : Mat} (hfin : GaussFinal n m0 row index m) {s : Nat → Nat}
    (hs : Sat n m0 s) :
    hasBadRow n m row = false := by
  rw [hasBadRow_false_iff]
  intro r h1 h2 hcon
  have hsat := (hfin.equiv s).mp hs r h2
  have hzero : ∀ c ∈ Finset.range n, (m r c : ZMod 2) * (s c : ZMod 2) = 0 := by
    intro c hcmem
    rw [hfin.lowzero r c h1 h2 (Finset.mem_range.mp hcmem), Nat.cast_zero, zero_mul]
  rw [Finset.sum_eq_zero hzero, hcon, Nat.cast_one] at hsat
  exact one_ne_zero hsat.symm

end GaussCorrectness

section SystemBridge

/-- All entries of the built matrix are 0/1. -/
theorem buildMatrix_le_one (y x : Nat) (st : Grid) :
    ∀ r c, r < y * x → c ≤ y * x → buildMatrix y x st r c ≤ 1 := by
  intro r c _ _
  rw [buildMatrix_apply]
  unfold buildEntry
  split_ifs <;> simp

/-- Solving the built system is exactly cancelling each cell's initial parity. -/
theorem sat_build_iff (y x : Nat) (st : Grid) (s : Nat → Nat) :
    Sat (y * x) (buildMatrix y x st) s ↔
      ∀ i, i < y → ∀ j, j < x →
        (∑ q ∈ Finset.range (y * x),
          (if q / x = i ∨ q % x = j then (1 : ZMod 2) else 0) * (s q : ZMod 2))
          = bitZ (st i j) := by
  constructor
  · intro hs i hi j hj
    have hp : i * x + j < y * x := flat_lt hi hj
    have hrow := hs (i * x + j) hp
    have hcoef : ∀ q ∈ Finset.range (y * x),
        (buildMatrix y x st (i * x + j) q : ZMod 2) * (s q : ZMod 2)
          = (if q / x = i ∨ q % x = j then (1 : ZMod 2) else 0) * (s q : ZMod 2) := by
      intro q hq
      have hqlt := Finset.mem_range.mp hq
      rw [buildMatrix_apply]
      unfold buildEntry
      rw [if_pos hp, if_neg (Nat.ne_of_lt hqlt), flat_div hj, flat_mod hj]
      by_cases hcond : q / x = i ∨ q % x = j
      · rw [if_pos ⟨hqlt, hcond⟩, if_pos hcond, Nat.cast_one]
      · rw [if_neg (by rintro ⟨-, hcc⟩; exact hcond hcc), if_neg hcond, Nat.cast_zero]
    have haug : (buildMatrix y x st (i * x + j) (y * x) : ZMod 2) = bitZ (st i j) := by
      rw [buildMatrix_apply]
      unfold buildEntry
      rw [if_pos hp, if_pos rfl, flat_div hj, flat_mod hj]
      by_cases hst : st i j
      · rw [if_pos hst, Nat.cast_one]
        unfold bitZ
        rw [if_pos hst]
      · rw [if_neg hst, Nat.cast_zero]
        unfold bitZ
        rw [if_neg hst]
    calc (∑ q ∈ Finset.range (y * x),
          (if q / x = i ∨ q % x = j then (1 : ZMod 2) else 0) * (s q : ZMod 2))
        = ∑ q ∈ Finset.range (y * x),
            (buildMatrix y x st (i * x + j) q : ZMod 2) * (s q : ZMod 2) :=
          (Finset.sum_congr rfl hcoef).symm
      _ = (buildMatrix y x st (i * x + j) (y * x) : ZMod 2) := hrow
      _ = bitZ (st i j) := haug
  · intro hall r hr
    have hx : 0 < x := by
      rcases Nat.eq_zero_or_pos x with rfl | h
      · rw [Nat.mul_zero] at hr
        exact absurd hr (Nat.not_lt_zero r)
      · exact h
    have hi : r / x < y := div_lt_of_lt_mul hx hr
    have hj : r % x < x := Nat.mod_lt r hx
    have hcell := hall (r / x) hi (r % x) hj
    have hcoef : ∀ q ∈ Finset.range (y * x),
        (buildMatrix y x st r q : ZMod 2) * (s q : ZMod 2)
          = (if q / x = r / x ∨ q % x = r % x then (1 : ZMod 2) else 0) * (s q : ZMod 2) := by
      intro q hq
      have hqlt := Finset.mem_range.mp hq
      rw [buildMatrix_apply]
      unfold buildEntry
      rw [if_pos hr, if_neg (Nat.ne_of_lt hqlt)]
      by_cases hcond : q / x = r / x ∨ q % x = r % x
      · rw [if_pos ⟨hqlt, hcond⟩, if_pos hcond, Nat.cast_one]
      · rw [if_neg (by rintro ⟨-, hcc⟩; exact hcond hcc), if_neg hcond, Nat.cast_zero]
    have haug : (buildMatrix y x st r (y * x) : ZMod 2) = bitZ (st (r / x) (r % x)) := by
      rw [buildMatrix_apply]
      unfold buildEntry
      rw [if_pos hr, if_pos rfl]
      by_cases hst : st (r / x) (r % x)
      · rw [if_pos hst, Nat.cast_one]
        unfold bitZ
        rw [if_pos hst]
      · rw [if_neg hst, Nat.cast_zero]
        unfold bitZ
        rw [if_neg hst]
    calc (∑ c ∈ Finset.range (y * x), (buildMatrix y x st r c : ZMod 2) * (s c : ZMod 2))
        = ∑ q ∈ Finset.range (y * x),
            (if q / x = r / x ∨ q % x = r % x then (1 : ZMod 2) else 0) * (s q : ZMod 2) :=
          Finset.sum_congr rfl hcoef
      _ = bitZ (st (r / x) (r % x)) := hcell
      _ = (buildMatrix y x st r (y * x) : ZMod 2) := haug.symm

/-- Cell effect of replaying the solution bits through toggle calls. -/
theorem applySolution_cell (y x : Nat) (s : Nat → Nat) (hs : ∀ q, s q ≤ 1) (g : Grid)
    {i j : Nat} (hi : i < y) (hj : j < x) :
    bitZ ((applySolution y x (y * x) s g) i j)
      = bitZ (g i j) + ∑ q ∈ Finset.range (y * x),
          (if q / x = i ∨ q % x = j then (1 : ZMod 2) else 0) * (s q : ZMod 2) := by
  have hx : 0 < x := Nat.lt_of_le_of_lt (Nat.zero_le j) hj
  have key : ∀ K, K ≤ y * x →
      bitZ (((List.range K).foldl
        (fun h q => if s q = 1 then toggle y x h (q / x) (q % x) else h) g) i j)
        = bitZ (g i j) + ∑ q ∈ Finset.range K,
            (if q / x = i ∨ q % x = j then (1 : ZMod 2) else 0) * (s q : ZMod 2) := by
    intro K
    induction K with
    | zero => intro _; simp
    | succ K ih =>
      intro hK
      rw [foldl_range_succ, Finset.sum_range_succ]
      have hKyx : K < y * x := Nat.lt_of_succ_le hK
      have hKy : K / x < y := div_lt_of_lt_mul hx hKyx
      have hKx : K % x < x := Nat.mod_lt K hx
      have hind : bitZ (decide (i = K / x ∨ j = K % x))
          = (if K / x = i ∨ K % x = j then (1 : ZMod 2) else 0) := by
        by_cases hP : K / x = i ∨ K % x = j
        · have hP2 : i = K / x ∨ j = K % x := by
            rcases hP with h | h
            · exact Or.inl h.symm
            · exact Or.inr h.symm
          rw [if_pos hP, decide_eq_true hP2]
          rfl
        · have hP2 : ¬(i = K / x ∨ j = K % x) := by
            rintro (h | h)
            · exact hP (Or.inl h.symm)
            · exact hP (Or.inr h.symm)
          rw [if_neg hP, decide_eq_false hP2]
          rfl
      by_cases hsk : s K = 1
      · rw [if_pos hsk, toggle_apply_lt y x _ hKy hKx hi hj, bitZ_xor,
          ih (Nat.le_of_succ_le hK), hind, hsk, Nat.cast_one, mul_one, add_assoc]
      · rw [if_neg hsk, ih (Nat.le_of_succ_le hK)]
        have h0 : s K = 0 := by
          rcases Nat.le_one_iff_eq_zero_or_eq_one.mp (hs K) with h | h
          · exact h
          · exact absurd h hsk
        rw [h0, Nat.cast_zero, mul_zero, add_zero]
  exact key (y * x) (Nat.le_refl _)

/-- Cell effect of an arbitrary in-range toggle list. -/
theorem applyToggles_cell (y x : Nat) :
    ∀ (L : List (Nat × Nat)), (∀ p ∈ L, p.1 < y ∧ p.2 < x) → ∀ (g : Grid) {i j : Nat},
      i < y → j < x →
      bitZ ((applyToggles y x L g) i j)
        = bitZ (g i j)
          + (L.map (fun p => if p.1 = i ∨ p.2 = j then (1 : ZMod 2) else 0)).sum := by
  intro L
  induction L with
  | nil =>
    intro _ g i j hi hj
    simp [applyToggles]
  | cons p L ihL =>
    intro hmem g i j hi hj
    have hp := hmem p (List.mem_cons_self p L)
    have hind : bitZ (decide (i = p.1 ∨ j = p.2))
        = (if p.1 = i ∨ p.2 = j then (1 : ZMod 2) else 0) := by
      by_cases hP : p.1 = i ∨ p.2 = j
      · have hP2 : i = p.1 ∨ j = p.2 := by
          rcases hP with h | h
          · exact Or.inl h.symm
          · exact Or.inr h.symm
        rw [if_pos hP, decide_eq_true hP2]
        rfl
      · have hP2 : ¬(i = p.1 ∨ j = p.2) := by
          rintro (h | h)
          · exact hP (Or.inl h.symm)
          · exact hP (Or.inr h.symm)
        rw [if_neg hP, decide_eq_false hP2]
        rfl
    show bitZ ((applyToggles y x L (toggle y x g p.1 p.2)) i j) = _
    rw [ihL (fun q hq => hmem q (List.mem_cons_of_mem p hq)) _ hi hj,
      toggle_apply_lt y x g hp.1 hp.2 hi hj, bitZ_xor, hind,
      List.map_cons, List.sum_cons, add_assoc,
      add_comm ((if p.1 = i ∨ p.2 = j then (1 : ZMod 2) else 0)) _]

/-- Grouping the per-toggle contributions of a list by target cell. -/
theorem list_sum_group (y x : Nat) (i j : Nat) :
    ∀ (L : List (Nat × Nat)), (∀ p ∈ L, p.1 < y ∧ p.2 < x) →
      (L.map (fun p => if p.1 = i ∨ p.2 = j then (1 : ZMod 2) else 0)).sum
        = ∑ q ∈ Finset.range (y * x),
            (if q / x = i ∨ q % x = j then (1 : ZMod 2) else 0)
              * ((L.countP (fun p => p.1 * x + p.2 = q) : Nat) : ZMod 2) := by
  intro L
  induction L with
  | nil =>
    intro _
    rw [List.map_nil, List.sum_nil]
    refine (Finset.sum_eq_zero ?_).symm
    intro q _
    rw [List.countP_nil, Nat.cast_zero, mul_zero]
  | cons p L ihL =>
    intro hmem
    have hp := hmem p (List.mem_cons_self p L)
    have hp0 : p.1 * x + p.2 < y * x := flat_lt hp.1 hp.2
    rw [List.map_cons, List.sum_cons, ihL (fun q hq => hmem q (List.mem_cons_of_mem p hq))]
    have hsplit : ∀ q ∈ Finset.range (y * x),
        (if q / x = i ∨ q % x = j then (1 : ZMod 2) else 0)
            * (((p :: L).countP (fun p => p.1 * x + p.2 = q) : Nat) : ZMod 2)
          = (if q / x = i ∨ q % x = j then (1 : ZMod 2) else 0)
              * ((L.countP (fun p => p.1 * x + p.2 = q) : Nat) : ZMod 2)
            + (if q / x = i ∨ q % x = j then (1 : ZMod 2) else 0)
              * (if p.1 * x + p.2 = q then (1 : ZMod 2) else 0) := by
      intro q _
      rw [List.countP_cons]
      by_cases hq : p.1 * x + p.2 = q
      · rw [decide_eq_true hq, if_pos rfl, if_pos hq, Nat.cast_add, Nat.cast_one,
          mul_add, mul_one]
      · rw [decide_eq_false hq, if_neg Bool.false_ne_true, if_neg hq,
          Nat.add_zero, mul_zero, add_zero]
    rw [Finset.sum_congr rfl hsplit, Finset.sum_add_distrib]
    have h1 : (∑ q ∈ Finset.range (y * x),
        (if q / x = i ∨ q % x = j then (1 : ZMod 2) else 0)
          * (if p.1 * x + p.2 = q then (1 : ZMod 2) else 0))
        = (if (p.1 * x + p.2) / x = i ∨ (p.1 * x + p.2) % x = j then (1 : ZMod 2) else 0)
          * (if p.1 * x + p.2 = p.1 * x + p.2 then (1 : ZMod 2) else 0) := by
      apply Finset.sum_eq_single_of_mem (p.1 * x + p.2) (Finset.mem_range.mpr hp0)
      intro q hqmem hqne
      have hne2 : ¬(p.1 * x + p.2 = q) := fun hh => hqne hh.symm
      rw [if_neg hne2, mul_zero]
    rw [h1, if_pos rfl, mul_one, flat_div hp.2, flat_mod hp.2]
    exact add_comm _ _

end SystemBridge

section PipelineLemmas

/-- `isLocked` is false exactly when every in-range cell is false. -/
theorem isLocked_false_iff (y x : Nat) (g : Grid) :
    isLocked y x g = false ↔ ∀ i, i < y → ∀ j, j < x → g i j = false := by
  unfold isLocked
  constructor
  · intro h i hi j hj
    cases hgv : g i j
    · rfl
    · have hany : (List.range x).any (fun xx => (List.range y).any (fun yy => g yy xx)) = true :=
        List.any_eq_true.mpr ⟨j, List.mem_range.mpr hj,
          List.any_eq_true.mpr ⟨i, List.mem_range.mpr hi, hgv⟩⟩
      rw [h] at hany
      exact absurd hany Bool.false_ne_true
  · intro h
    cases hb : (List.range x).any (fun xx => (List.range y).any (fun yy => g yy xx))
    · rfl
    · obtain ⟨j, hj, hin⟩ := List.any_eq_true.mp hb
      obtain ⟨i, hi, hg⟩ := List.any_eq_true.mp hin
      rw [h i (List.mem_range.mp hi) j (List.mem_range.mp hj)] at hg
      exact absurd hg Bool.false_ne_true

/-- `isLocked` is true exactly when some in-range cell is true. -/
theorem isLocked_true_iff (y x : Nat) (g : Grid) :
    isLocked y x g = true ↔ ∃ i, i < y ∧ ∃ j, j < x ∧ g i j = true := by
  constructor
  · intro h
    obtain ⟨j, hj, hin⟩ := List.any_eq_true.mp h
    obtain ⟨i, hi, hg⟩ := List.any_eq_true.mp hin
    exact ⟨i, List.mem_range.mp hi, j, List.mem_range.mp hj, hg⟩
  · rintro ⟨i, hi, j, hj, hg⟩
    exact List.any_eq_true.mpr ⟨j, List.mem_range.mpr hj,
      List.any_eq_true.mpr ⟨i, List.mem_range.mpr hi, hg⟩⟩

/-- Every reachable state gives a 0/1 solution of the built system. -/
theorem reachable_sat (y x : Nat) {g : Grid} (hr : Reachable y x g) :
    ∃ s : Nat → Nat, (∀ q, s q ≤ 1) ∧ Sat (y * x) (buildMatrix y x g) s := by
  obtain ⟨L, hmem, rfl⟩ := hr
  refine ⟨fun q => (L.countP (fun p => p.1 * x + p.2 = q)) % 2, ?_, ?_⟩
  · intro q
    exact Nat.le_of_lt_succ (Nat.mod_lt _ (by decide))
  · rw [sat_build_iff]
    intro i hi j hj
    have hcell := applyToggles_cell y x L hmem zeroGrid hi hj
    rw [list_sum_group y x i j L hmem] at hcell
    have hz : bitZ (zeroGrid i j) = 0 := rfl
    rw [hz, zero_add] at hcell
    have hmod : (∑ q ∈ Finset.range (y * x),
        (if q / x = i ∨ q % x = j then (1 : ZMod 2) else 0)
          * ((L.countP (fun p => p.1 * x + p.2 = q) % 2 : Nat) : ZMod 2))
        = ∑ q ∈ Finset.range (y * x),
            (if q / x = i ∨ q % x = j then (1 : ZMod 2) else 0)
              * ((L.countP (fun p => p.1 * x + p.2 = q) : Nat) : ZMod 2) :=
      Finset.sum_congr rfl (fun q _ => by rw [ZMod.natCast_mod])
    rw [hmod, ← hcell]

/-- A fully unlocked state is solved by the zero vector. -/
theorem sat_zero_of_unlocked (y x : Nat) (state : Grid)
    (hall : ∀ i, i < y → ∀ j, j < x → state i j = false) :
    Sat (y * x) (buildMatrix y x state) (fun _ => 0) := by
  rw [sat_build_iff]
  intro i hi j hj
  rw [hall i hi j hj]
  have hzero : ∀ q ∈ Finset.range (y * x),
      (if q / x = i ∨ q % x = j then (1 : ZMod 2) else 0) * ((0 : Nat) : ZMod 2) = 0 := by
    intro q _
    rw [Nat.cast_zero, mul_zero]
  rw [Finset.sum_eq_zero hzero]
  rfl

/-- The elimination stage of the pipeline always satisfies the final facts. -/
theorem gaussOut_final (y x : Nat) (state : Grid) :
    GaussFinal (y * x) (buildMatrix y x state) (gaussOut y x state).1
      (gaussOut y x state).2.1 (gaussOut y x state).2.2 :=
  gauss_final (buildMatrix y x state) (buildMatrix_le_one y x state)

/-- Any 0/1 solution of the built system makes the consistency check pass. -/
theorem noSolution_false_of_sat (y x : Nat) (state : Grid) {s : Nat → Nat}
    (hsat : Sat (y * x) (buildMatrix y x state) s) :
    noSolution y x state = false :=
  gauss_consistent (gaussOut_final y x state) hsat

/-- When the consistency check passes, the replayed solution clears every cell. -/
theorem openBox_cells_false (y x : Nat) (state : Grid) (h : noSolution y x state = false) :
    ∀ i, i < y → ∀ j, j < x →
      applySolution y x (y * x) (ansVec y x state) state i j = false := by
  have hfin := gaussOut_final y x state
  have hok : hasBadRow (y * x) (gaussOut y x state).2.2 (gaussOut y x state).1 = false := h
  have hsat : Sat (y * x) (buildMatrix y x state) (ansVec y x state) :=
    gauss_solution hfin hok
  intro i hi j hj
  have hle : ∀ q, ansVec y x state q ≤ 1 := fun q => solVec_le_one hfin q
  have hcell := applySolution_cell y x (ansVec y x state) hle state hi hj
  have hscell := (sat_build_iff y x state (ansVec y x state)).mp hsat i hi j hj
  rw [hscell, zmod_two_add_self (bitZ (state i j))] at hcell
  exact bitZ_eq_zero.mp hcell

/-- The inconsistent branch of `openBoxOn`. -/
theorem openBoxOn_noSolution (y x : Nat) (state : Grid) (h : noSolution y x state = true) :
    openBoxOn y x state = (true, state) := by
  unfold openBoxOn
  rw [if_pos h]

/-- The success branch of `openBoxOn`. -/
theorem openBoxOn_solution (y x : Nat) (state : Grid) (h : noSolution y x state = false) :
    openBoxOn y x state
      = (isLocked y x (applySolution y x (y * x) (ansVec y x state) state),
         applySolution y x (y * x) (ansVec y x state) state) := by
  unfold openBoxOn
  rw [if_neg (by rw [h]; exact Bool.false_ne_true)]

end PipelineLemmas

section Claims

/-- Claim C1: for every grid whose initial state is reachable from the all-zero
grid by a finite sequence of toggle operations (as the constructor's shuffle
produces), running the solver (the build-solve-apply pipeline of `openBox` on
that state) returns `false` and leaves every cell of the grid false. -/
theorem openBox_solves_reachable (y x : Nat) (state : Grid) (h : Reachable y x state) :
    (openBoxOn y x state).1 = false ∧
      ∀ i, i < y → ∀ j, j < x → (openBoxOn y x state).2 i j = false := by
  obtain ⟨s, hle, hsat⟩ := reachable_sat y x h
  have hns : noSolution y x state = false := noSolution_false_of_sat y x state hsat
  have hcells := openBox_cells_false y x state hns
  rw [openBoxOn_solution y x state hns]
  exact ⟨(isLocked_false_iff y x _).mpr hcells, fun i hi j hj => hcells i hi j hj⟩

theorem openBox_solves_reachable_witness :
    Reachable 2 2 st2 ∧ (openBoxOn 2 2 st2).1 = false ∧
      (openBoxOn 2 2 st2).2 0 0 = false ∧ (openBoxOn 2 2 st2).2 0 1 = false ∧
      (openBoxOn 2 2 st2).2 1 0 = false ∧ (openBoxOn 2 2 st2).2 1 1 = false := by
  have hreach : Reachable 2 2 st2 := ⟨[(0, 0)], by decide, rfl⟩
  have hmain := openBox_solves_reachable 2 2 st2 hreach
  exact ⟨hreach, hmain.1,
    hmain.2 0 (by decide) 0 (by decide), hmain.2 0 (by decide) 1 (by decide),
    hmain.2 1 (by decide) 0 (by decide), hmain.2 1 (by decide) 1 (by decide)⟩

/-- Claim C2: for every initial grid state, if the Gauss-Jordan elimination
reports a consistent system (no pivotless row with a 1 in the augmented column),
then after the solution vector's set bits are replayed as toggle calls,
`isLocked()` on the grid returns false; consequently `openBox` returns false. -/
theorem openBox_consistent_unlocks (y x : Nat) (state : Grid)
    (h : noSolution y x state = false) :
    isLocked y x (applySolution y x (y * x) (ansVec y x state) state) = false ∧
      (openBoxOn y x state).1 = false := by
  have hcells := openBox_cells_false y x state h
  have hlock : isLocked y x (applySolution y x (y * x) (ansVec y x state) state) = false :=
    (isLocked_false_iff y x _).mpr hcells
  refine ⟨hlock, ?_⟩
  rw [openBoxOn_solution y x state h]
  exact hlock

theorem openBox_consistent_unlocks_witness :
    noSolution 2 2 st2 = false ∧
      isLocked 2 2 (applySolution 2 2 (2 * 2) (ansVec 2 2 st2) st2) = false :=
  ⟨by decide, (openBox_consistent_unlocks 2 2 st2 (by decide)).1⟩

/-- Claim C3: the boolean result of the `openBox` pipeline equals the grid's
locked status at return: it returns `true` exactly when some cell of the grid it
hands back is still true (this covers the inconsistent-system path, which
returns `true` with the scrambled grid, necessarily still locked), and `false`
exactly when every cell is false. -/
theorem openBox_result_iff_locked (y x : Nat) (state : Grid) :
    (openBoxOn y x state).1 = true ↔
      ∃ i, i < y ∧ ∃ j, j < x ∧ (openBoxOn y x state).2 i j = true := by
  cases hns : noSolution y x state
  · rw [openBoxOn_solution y x state hns]
    exact isLocked_true_iff y x _
  · rw [openBoxOn_noSolution y x state hns]
    constructor
    · intro _
      by_contra hno
      have hall : ∀ i, i < y → ∀ j, j < x → state i j = false := by
        intro i hi j hj
        cases hv : state i j
        · rfl
        · exact absurd ⟨i, hi, j, hj, hv⟩ hno
      have hsat := sat_zero_of_unlocked y x state hall
      have hfalse := noSolution_false_of_sat y x state hsat
      rw [hns] at hfalse
      exact Bool.noConfusion hfalse
    · intro _
      rfl

/-- Claim C4: for every grid and valid toggle position (y,x), `toggle` flips the
valid cell (a,b) if and only if `a = y` or `b = x`, and changes no other cell
(the grid's dimensions are fixed parameters and are untouched). -/
theorem toggle_flips_iff (ySize xSize : Nat) (g : Grid) (y x a b : Nat)
    (hy : y < ySize) (hx : x < xSize) (ha : a < ySize) (hb : b < xSize) :
    toggle ySize xSize g y x a b = if a = y ∨ b = x then !(g a b) else g a b := by
  rw [toggle_apply_lt ySize xSize g hy hx ha hb]
  by_cases h : a = y ∨ b = x
  · rw [if_pos h, decide_eq_true h, Bool.xor_true]
  · rw [if_neg h, decide_eq_false h, Bool.xor_false]

theorem toggle_flips_iff_witness :
    (0 : Nat) < 2 ∧ (1 : Nat) < 2 ∧
      toggle 2 2 zeroGrid 0 1 1 1
        = if (1 : Nat) = 0 ∨ (1 : Nat) = 1 then !(zeroGrid 1 1) else zeroGrid 1 1 :=
  ⟨by decide, by decide,
    toggle_flips_iff 2 2 zeroGrid 0 1 1 1 (by decide) (by decide) (by decide) (by decide)⟩

/-- Claim C5: the system builder produces, for every pair of cells (i,j) and
(a,b) with flat indices `p = i*x+j` and `q = a*x+b`, the coefficient
`matrix[p][q] = 1` iff `a = i` or `b = j`, and the augmented entry
`matrix[p][boxSize] = 1` iff the snapshot cell (i,j) is locked.  Building the
matrix is a pure function of the snapshot and does not touch the grid. -/
theorem buildMatrix_entries (y x : Nat) (st : Grid) (i j a b : Nat)
    (hi : i < y) (hj : j < x) (ha : a < y) (hb : b < x) :
    buildMatrix y x st (i * x + j) (a * x + b) = (if a = i ∨ b = j then 1 else 0) ∧
      buildMatrix y x st (i * x + j) (y * x) = (if st i j then 1 else 0) := by
  have hp : i * x + j < y * x := flat_lt hi hj
  have hq : a * x + b < y * x := flat_lt ha hb
  constructor
  · rw [buildMatrix_apply]
    unfold buildEntry
    rw [if_pos hp, if_neg (Nat.ne_of_lt hq), flat_div hj, flat_mod hj,
      flat_div hb, flat_mod hb]
    by_cases h : a = i ∨ b = j
    · rw [if_pos ⟨hq, h⟩, if_pos h]
    · rw [if_neg (by rintro ⟨-, hc⟩; exact h hc), if_neg h]
  · rw [buildMatrix_apply]
    unfold buildEntry
    rw [if_pos hp, if_pos rfl, flat_div hj, flat_mod hj]

theorem buildMatrix_entries_witness :
    (0 : Nat) < 2 ∧ (1 : Nat) < 2 ∧
      buildMatrix 2 2 st2 (0 * 2 + 1) (1 * 2 + 1) = (if 1 = 0 ∨ 1 = 1 then 1 else 0) ∧
      buildMatrix 2 2 st2 (0 * 2 + 1) (2 * 2) = (if st2 0 1 then 1 else 0) :=
  ⟨by decide, by decide,
    buildMatrix_entries 2 2 st2 0 1 1 1 (by decide) (by decide) (by decide) (by decide)⟩

theorem applyToggles_perm_witness :
    ([((0 : Nat), (0 : Nat)), (1, 1)].Perm [((1 : Nat), (1 : Nat)), (0, 0)]) ∧
      applyToggles 2 2 [(0, 0), (1, 1)] zeroGrid
        = applyToggles 2 2 [(1, 1), (0, 0)] zeroGrid :=
  ⟨by decide, applyToggles_perm 2 2 (by decide) zeroGrid⟩

/-- Claim C8 (defect evidence): for a 0-sized grid the constructor's shuffle hits
`rng() % ySize` with `ySize = 0`, which is undefined behavior in C++ (modulo by
zero, followed by out-of-range vector indexing), so `openBox(0, x)` does not
reliably complete; the claim that it completes and returns false only describes
the solve pipeline, which indeed would return false on an empty grid with the
grid untouched. -/
theorem shuffle_zero_dim_crashes :
    shuffleFrom 0 3 zeroGrid [(7, 4)] = none ∧
      openBoxOn 0 3 zeroGrid = (false, zeroGrid) :=
  ⟨rfl, rfl⟩

/-- Claim C9: for a 1×1 grid whose single cell starts locked, the solver applies
exactly one toggle, at position (0,0), and returns false with the final grid
all-zero. -/
theorem openBox_one_by_one :
    unitState 0 0 = true ∧ appliedToggles 1 1 unitState = [(0, 0)] ∧
      (openBoxOn 1 1 unitState).1 = false ∧ (openBoxOn 1 1 unitState).2 0 0 = false := by
  exact ⟨by decide, by decide, by decide, by decide⟩

/-- Claim C10: whenever the pipeline takes the inconsistent-system path, it
returns `true` with the grid exactly in its initial scrambled state (no toggle
was issued). -/
theorem openBox_inconsistent_unchanged (y x : Nat) (state : Grid)
    (h : noSolution y x state = true) :
    openBoxOn y x state = (true, state) :=
  openBoxOn_noSolution y x state h

theorem openBox_inconsistent_unchanged_witness :
    noSolution 1 2 unitState = true ∧ openBoxOn 1 2 unitState = (true, unitState) :=
  ⟨by decide, openBox_inconsistent_unchanged 1 2 unitState (by decide)⟩

end Claims
